import Mathlib

/-!
# Weighted Round Robin scheduler: a shallow embedding of `wrr_schedule`

This file embeds the C function `wrr_schedule` from `src/wrr_scheduler.c`
(ByteBalancer WRR scheduler) into Lean and proves the specification's
claims about it.

Modelling decisions:
* `ue_t` mirrors the C struct (`ue_id`, `weight`, `active`); machine
  integers are modelled as `Nat` (the code only reads and compares them,
  and index arithmetic `(idx + 1) % n` with `idx < n` cannot overflow
  `size_t`).
* The allocation callback `alloc_ue_fn` receives the UE and the opaque
  context and returns an outcome together with the updated context; this
  models a C callback mutating `*ctx`.  A possibly-NULL callback is an
  `Option` of this type.
* The participant array is a `List ue_t` whose length is the C argument
  `n`; the array pointer and count always travel together in the C API.
* Every invocation of the callback is recorded in a trace of
  `attempt_record`s (array position, the UE record passed, the outcome
  returned), making the call sequence observable.  The participant list
  is threaded through the loop and returned (`ues_after`) so that the
  no-mutation frame property is a statement, not a typing artifact.
-/

namespace WRR

/-- C enum `alloc_outcome_t` (`ALLOC_FAIL = 0`, `ALLOC_SUCCESS = 1`). -/
inductive alloc_outcome_t : Type
  | ALLOC_FAIL : alloc_outcome_t
  | ALLOC_SUCCESS : alloc_outcome_t
  deriving DecidableEq, Repr

open alloc_outcome_t

/-- C struct `ue_t`: identifier, WRR weight, eligibility flag. -/
structure ue_t : Type where
  ue_id : Nat
  weight : Nat
  active : Bool
  deriving DecidableEq, Repr

/-- Default record used for (never-occurring) out-of-range array reads. -/
def ue_default : ue_t := ⟨0, 0, false⟩

/-- The allocation callback: `alloc_ue_fn` in C.  The context of type `σ`
is threaded explicitly to model mutation through the `void *ctx` pointer. -/
def alloc_ue_fn (σ : Type) : Type := ue_t → σ → alloc_outcome_t × σ

/-- The eligibility test used throughout the C code:
`ues[i].active && ues[i].weight > 0`. -/
def is_eligible (u : ue_t) : Bool := u.active && decide (0 < u.weight)

/-- The outcome test `res == ALLOC_SUCCESS` from the C code. -/
def is_success : alloc_outcome_t → Bool
  | ALLOC_SUCCESS => true
  | ALLOC_FAIL => false

/-- The first loop of `wrr_schedule`: count the eligible ("active") UEs. -/
def active_count : List ue_t → Nat
  | [] => 0
  | u :: rest => (if is_eligible u then 1 else 0) + active_count rest

/-- One record per callback invocation: the array position visited, the
UE record passed to the callback, the outcome the callback returned. -/
structure attempt_record : Type where
  pos : Nat
  ue : ue_t
  outcome : alloc_outcome_t
  deriving DecidableEq, Repr

/-- The inner `for (k = 0; k < w; k++)` loop: invoke the callback `w`
times in sequence, collecting the outcomes in order. -/
def alloc_attempts (σ : Type) (alloc : alloc_ue_fn σ) (u : ue_t) :
    Nat → σ → List alloc_outcome_t × σ
  | 0, s => ([], s)
  | Nat.succ k, s =>
      let r := alloc u s
      let rest := alloc_attempts σ alloc u k r.2
      (r.1 :: rest.1, rest.2)

/-- Result of the main loop of `wrr_schedule`: the `next_idx` and
`any_success` variables at loop exit, the final context, the trace of
callback invocations, and the participant list as left by the loop. -/
structure loop_result (σ : Type) : Type where
  next_idx : Nat
  any_success : Bool
  ctx : σ
  attempts : List attempt_record
  ues_after : List ue_t

/-- The main `for (visited = 0; visited < n; visited++)` loop of
`wrr_schedule`.  Arguments after `ues` are: remaining iterations
(`n - visited`), the local `idx`, the `next_idx` variable, the
`any_success` flag, and the context. -/
def wrr_loop (σ : Type) (alloc : alloc_ue_fn σ) (n : Nat) (ues : List ue_t) :
    Nat → Nat → Nat → Bool → σ → loop_result σ
  | 0, _idx, nidx, anySucc, s =>
      { next_idx := nidx, any_success := anySucc, ctx := s,
        attempts := [], ues_after := ues }
  | Nat.succ fuel, idx, nidx, anySucc, s =>
      let u := ues.getD idx ue_default
      if is_eligible u then
        let res := alloc_attempts σ alloc u u.weight s
        let anySucc' := anySucc || res.1.any is_success
        let nidx' := if anySucc' then (idx + 1) % n else nidx
        let rest := wrr_loop σ alloc n ues fuel ((idx + 1) % n) nidx' anySucc' res.2
        { rest with
          attempts := res.1.map (fun o => ⟨idx, u, o⟩) ++ rest.attempts }
      else
        wrr_loop σ alloc n ues fuel ((idx + 1) % n) nidx anySucc s

/-- Result of one call to `wrr_schedule`: the returned index, the final
context, the trace of callback invocations, and the participant list
after the call. -/
structure wrr_result (σ : Type) : Type where
  next_idx : Nat
  ctx : σ
  attempts : List attempt_record
  ues_after : List ue_t
  deriving Repr

/-- The C function `wrr_schedule(ues, n, next_idx, alloc_fn, ctx)`.
`ues.length` plays the role of the array length `n`. -/
def wrr_schedule (σ : Type) (ues : List ue_t) (next_idx : Nat)
    (alloc_fn : Option (alloc_ue_fn σ)) (ctx : σ) : wrr_result σ :=
  let n := ues.length
  match alloc_fn with
  | none => { next_idx := 0, ctx := ctx, attempts := [], ues_after := ues }
  | some alloc =>
    if n = 0 then
      { next_idx := 0, ctx := ctx, attempts := [], ues_after := ues }
    else if active_count ues = 0 then
      { next_idx := next_idx % n, ctx := ctx, attempts := [], ues_after := ues }
    else
      let r := wrr_loop σ alloc n ues n (next_idx % n) next_idx false ctx
      { next_idx := r.next_idx % n, ctx := r.ctx,
        attempts := r.attempts, ues_after := r.ues_after }

/-- The order in which array positions are visited by the main loop when
it starts at position `s`: `s, s+1, …` wrapping modulo `n`, for `n`
steps. -/
def visit_order (n s : Nat) : List Nat :=
  (List.range n).map (fun j => (s + j) % n)

/-- The attempts the loop generates at position `i`, projected to the
outcome-independent part (position, UE record): `weight` many for an
eligible UE, none otherwise. -/
def planned_at (ues : List ue_t) (i : Nat) : List (Nat × ue_t) :=
  let u := ues.getD i ue_default
  if is_eligible u then List.replicate u.weight (i, u) else []

/-- The per-round attempt budget of a UE: `weight` if eligible, else 0. -/
def sched_weight (u : ue_t) : Nat := if is_eligible u then u.weight else 0

/-- Sum of weights over the eligible participants. -/
def weight_total (ues : List ue_t) : Nat :=
  ((ues.filter is_eligible).map ue_t.weight).sum

/-- Closed form of the `next_idx` variable at loop exit, computed from the
trace: if the loop entered with `any_success = a` and produced trace `tr`,
the cursor is just past the position of the last attempt whenever any
success was seen, and the incoming `nidx` otherwise. -/
def cursor_spec (n nidx : Nat) (a : Bool) (tr : List attempt_record) : Nat :=
  match tr.getLast? with
  | none => nidx
  | some e => if a || tr.any (fun r => is_success r.outcome) then (e.pos + 1) % n else nidx

/-! ## Basic lemmas about the loop components -/

theorem alloc_attempts_length (σ : Type) (alloc : alloc_ue_fn σ) (u : ue_t) :
    ∀ (w : Nat) (s : σ), (alloc_attempts σ alloc u w s).1.length = w := by
  intro w
  induction w with
  | zero => intro s; rfl
  | succ k ih => intro s; simp [alloc_attempts, ih]

theorem any_map_comp {α β : Type} (l : List α) (f : α → β) (p : β → Bool) :
    (l.map f).any p = l.any (fun x => p (f x)) := by
  induction l with
  | nil => rfl
  | cons x xs ih => simp [ih]

theorem map_const_eq_replicate {α β : Type} (l : List α) (b : β) :
    l.map (fun _ => b) = List.replicate l.length b := by
  induction l with
  | nil => rfl
  | cons x xs ih => simp [ih, List.replicate_succ]

/-- The loop never writes to the participant array. -/
theorem wrr_loop_ues_after (σ : Type) (alloc : alloc_ue_fn σ) (n : Nat) (ues : List ue_t) :
    ∀ (fuel idx nidx : Nat) (a : Bool) (s : σ),
      (wrr_loop σ alloc n ues fuel idx nidx a s).ues_after = ues := by
  intro fuel
  induction fuel with
  | zero => intro idx nidx a s; rfl
  | succ k ih =>
      intro idx nidx a s
      by_cases h : is_eligible (ues.getD idx ue_default) = true
      · simp only [wrr_loop]
        rw [if_pos h]
        exact ih _ _ _ _
      · simp only [wrr_loop]
        rw [if_neg h]
        exact ih _ _ _ _

/-- The visit order is a rotation of `0, 1, …, n-1`. -/
theorem visit_order_eq_rotate (n s : Nat) :
    visit_order n s = (List.range n).rotate s := by
  apply List.ext_getElem
  · simp [visit_order]
  · intro i h1 h2
    simp only [visit_order, List.getElem_map, List.getElem_range,
      List.getElem_rotate, List.length_range]
    rw [Nat.add_comm]

/-- The visit order is a permutation of the positions `0, 1, …, n-1`. -/
theorem visit_order_perm (n s : Nat) :
    (visit_order n s).Perm (List.range n) := by
  rw [visit_order_eq_rotate]
  exact List.rotate_perm _ _

theorem visit_order_nodup (n s : Nat) : (visit_order n s).Nodup :=
  ((visit_order_perm n s).nodup_iff).mpr (List.nodup_range n)

theorem mem_visit_order {n s i : Nat} : i ∈ visit_order n s ↔ i < n := by
  rw [(visit_order_perm n s).mem_iff, List.mem_range]

/-- Splitting off the first visited position from the planned attempts. -/
theorem planned_split (k idx n : Nat) (ues : List ue_t) (hidx : idx < n) :
    ((List.range (k + 1)).map (fun j => (idx + j) % n)).flatMap (planned_at ues)
      = planned_at ues idx
        ++ ((List.range k).map (fun j => (((idx + 1) % n) + j) % n)).flatMap (planned_at ues) := by
  rw [List.range_succ_eq_map, List.map_cons, List.flatMap_cons, List.map_map]
  have h0 : (idx + 0) % n = idx := by
    rw [Nat.add_zero, Nat.mod_eq_of_lt hidx]
  have hfun : ((fun j => (idx + j) % n) ∘ Nat.succ)
      = (fun j => (((idx + 1) % n) + j) % n) := by
    funext j
    simp only [Function.comp]
    rw [Nat.mod_add_mod]
    congr 1
    omega
  rw [h0, hfun]

/-- The trace of the main loop, projected to (position, UE record): the
loop visits `idx, idx+1, …` modulo `n` and generates `weight` attempts at
every eligible position, none elsewhere — independently of the outcomes
the callback returns. -/
theorem wrr_loop_trace (σ : Type) (alloc : alloc_ue_fn σ) (n : Nat) (ues : List ue_t) :
    ∀ (fuel idx nidx : Nat) (a : Bool) (s : σ), idx < n →
      (wrr_loop σ alloc n ues fuel idx nidx a s).attempts.map (fun r => (r.pos, r.ue))
        = ((List.range fuel).map (fun j => (idx + j) % n)).flatMap (planned_at ues) := by
  intro fuel
  induction fuel with
  | zero => intro idx nidx a s hidx; rfl
  | succ k ih =>
      intro idx nidx a s hidx
      have hn : 0 < n := Nat.lt_of_le_of_lt (Nat.zero_le idx) hidx
      have hidx' : (idx + 1) % n < n := Nat.mod_lt _ hn
      rw [planned_split k idx n ues hidx]
      by_cases h : is_eligible (ues.getD idx ue_default) = true
      · simp only [wrr_loop]
        rw [if_pos h]
        show (List.map (fun o => attempt_record.mk idx (ues.getD idx ue_default) o)
                (alloc_attempts σ alloc (ues.getD idx ue_default)
                  (ues.getD idx ue_default).weight s).1
              ++ _).map (fun r => (r.pos, r.ue)) = _
        rw [List.map_append, List.map_map]
        congr 1
        · show (alloc_attempts σ alloc (ues.getD idx ue_default)
                  (ues.getD idx ue_default).weight s).1.map
                (fun _ => (idx, ues.getD idx ue_default)) = _
          rw [map_const_eq_replicate, alloc_attempts_length]
          simp only [planned_at]
          rw [if_pos h]
        · exact ih _ _ _ _ hidx'
      · simp only [wrr_loop]
        rw [if_neg h]
        have hempty : planned_at ues idx = [] := by
          simp only [planned_at]
          rw [if_neg h]
        rw [hempty, List.nil_append]
        exact ih _ _ _ _ hidx'

theorem cursor_spec_of_getLast {n nidx : Nat} {a : Bool} {tr : List attempt_record}
    {e : attempt_record} (h : tr.getLast? = some e) :
    cursor_spec n nidx a tr
      = if a || tr.any (fun r => is_success r.outcome) then (e.pos + 1) % n else nidx := by
  simp only [cursor_spec, h]

/-- Effect on `cursor_spec` of prepending the block of attempts produced
at one eligible position: it is absorbed into the incoming `nidx` and
`any_success` arguments, exactly as the loop body updates them. -/
theorem cursor_spec_block (n nidx idx : Nat) (a : Bool) (u : ue_t)
    (outs : List alloc_outcome_t) (tr : List attempt_record) (hne : outs ≠ []) :
    cursor_spec n nidx a ((outs.map (fun o => attempt_record.mk idx u o)) ++ tr)
      = cursor_spec n (if a || outs.any is_success then (idx + 1) % n else nidx)
          (a || outs.any is_success) tr := by
  have hblock_any : (outs.map (fun o => attempt_record.mk idx u o)).any
      (fun r => is_success r.outcome) = outs.any is_success := by
    rw [any_map_comp]
  cases tr with
  | nil =>
      rw [List.append_nil]
      obtain ⟨o, ho⟩ := Option.isSome_iff_exists.mp (List.getLast?_isSome.mpr hne)
      have hbl : (outs.map (fun o => attempt_record.mk idx u o)).getLast?
          = some (attempt_record.mk idx u o) := by
        rw [List.getLast?_map, ho, Option.map_some']
      rw [cursor_spec_of_getLast hbl, hblock_any]
      rfl
  | cons e0 tr' =>
      have htne : e0 :: tr' ≠ [] := List.cons_ne_nil e0 tr'
      obtain ⟨e, he⟩ := Option.isSome_iff_exists.mp (List.getLast?_isSome.mpr htne)
      have happ : ((outs.map (fun o => attempt_record.mk idx u o)) ++ e0 :: tr').getLast?
          = some e := by
        rw [List.getLast?_append_of_ne_nil _ htne, he]
      rw [cursor_spec_of_getLast happ, cursor_spec_of_getLast he, List.any_append, hblock_any]
      cases ha : a <;>
        cases ho : outs.any is_success <;>
          cases ht : (e0 :: tr').any (fun r => is_success r.outcome) <;>
            simp [ha, ho, ht]

/-- The `next_idx` variable at loop exit, expressed through the trace:
just past the last attempt whenever any success was observed, the
incoming value otherwise. -/
theorem wrr_loop_next_idx_spec (σ : Type) (alloc : alloc_ue_fn σ) (n : Nat) (ues : List ue_t) :
    ∀ (fuel idx nidx : Nat) (a : Bool) (s : σ),
      (wrr_loop σ alloc n ues fuel idx nidx a s).next_idx
        = cursor_spec n nidx a (wrr_loop σ alloc n ues fuel idx nidx a s).attempts := by
  intro fuel
  induction fuel with
  | zero => intro idx nidx a s; rfl
  | succ k ih =>
      intro idx nidx a s
      by_cases h : is_eligible (ues.getD idx ue_default) = true
      · have h2 := h
        rw [is_eligible, Bool.and_eq_true, decide_eq_true_eq] at h2
        have hne : (alloc_attempts σ alloc (ues.getD idx ue_default)
            (ues.getD idx ue_default).weight s).1 ≠ [] := by
          intro hc
          have hl := alloc_attempts_length σ alloc (ues.getD idx ue_default)
            (ues.getD idx ue_default).weight s
          rw [hc] at hl
          simp only [List.length_nil] at hl
          omega
        simp only [wrr_loop]
        rw [if_pos h]
        dsimp only
        rw [cursor_spec_block n nidx idx a (ues.getD idx ue_default) _ _ hne]
        exact ih _ _ _ _
      · simp only [wrr_loop]
        rw [if_neg h]
        exact ih _ _ _ _

/-- All loop outputs except `next_idx` are independent of the incoming
`next_idx` variable. -/
theorem wrr_loop_nidx_indep (σ : Type) (alloc : alloc_ue_fn σ) (n : Nat) (ues : List ue_t) :
    ∀ (fuel idx : Nat) (a : Bool) (s : σ) (nidx₁ nidx₂ : Nat),
      (wrr_loop σ alloc n ues fuel idx nidx₁ a s).attempts
          = (wrr_loop σ alloc n ues fuel idx nidx₂ a s).attempts
        ∧ (wrr_loop σ alloc n ues fuel idx nidx₁ a s).ctx
          = (wrr_loop σ alloc n ues fuel idx nidx₂ a s).ctx := by
  intro fuel
  induction fuel with
  | zero => intro idx a s nidx₁ nidx₂; exact ⟨rfl, rfl⟩
  | succ k ih =>
      intro idx a s nidx₁ nidx₂
      by_cases h : is_eligible (ues.getD idx ue_default) = true
      · simp only [wrr_loop]
        rw [if_pos h, if_pos h]
        dsimp only
        obtain ⟨h1, h2⟩ := ih ((idx + 1) % n)
          (a || (alloc_attempts σ alloc (ues.getD idx ue_default)
            (ues.getD idx ue_default).weight s).1.any is_success)
          (alloc_attempts σ alloc (ues.getD idx ue_default)
            (ues.getD idx ue_default).weight s).2
          (if (a || (alloc_attempts σ alloc (ues.getD idx ue_default)
              (ues.getD idx ue_default).weight s).1.any is_success) = true
            then (idx + 1) % n else nidx₁)
          (if (a || (alloc_attempts σ alloc (ues.getD idx ue_default)
              (ues.getD idx ue_default).weight s).1.any is_success) = true
            then (idx + 1) % n else nidx₂)
        exact ⟨by rw [h1], h2⟩
      · simp only [wrr_loop]
        rw [if_neg h, if_neg h]
        exact ih _ _ _ _ _

/-! ## Counting the planned attempts -/

theorem planned_at_length (ues : List ue_t) (i : Nat) :
    (planned_at ues i).length = sched_weight (ues.getD i ue_default) := by
  by_cases h : is_eligible (ues.getD i ue_default) = true
  · simp only [planned_at, sched_weight]
    rw [if_pos h, if_pos h, List.length_replicate]
  · simp only [planned_at, sched_weight]
    rw [if_neg h, if_neg h]
    rfl

theorem range_getD_sum (g : ue_t → Nat) :
    ∀ l : List ue_t,
      ((List.range l.length).map (fun i => g (l.getD i ue_default))).sum = (l.map g).sum := by
  intro l
  induction l with
  | nil => rfl
  | cons u t ih =>
      rw [List.length_cons, List.range_succ_eq_map, List.map_cons, List.sum_cons,
        List.map_map, List.map_cons, List.sum_cons, List.getD_cons_zero]
      have hfun : ((fun i => g (List.getD (u :: t) i ue_default)) ∘ Nat.succ)
          = (fun i => g (t.getD i ue_default)) := by
        funext i
        simp [List.getD_cons_succ]
      rw [hfun, ih]

theorem sched_weight_sum : ∀ l : List ue_t, (l.map sched_weight).sum = weight_total l := by
  intro l
  induction l with
  | nil => rfl
  | cons u t ih =>
      by_cases h : is_eligible u = true
      · have hsw : sched_weight u = u.weight := by
          simp only [sched_weight]
          rw [if_pos h]
        rw [List.map_cons, List.sum_cons, hsw, ih]
        simp only [weight_total, List.filter_cons]
        rw [if_pos h, List.map_cons, List.sum_cons]
      · have hsw : sched_weight u = 0 := by
          simp only [sched_weight]
          rw [if_neg h]
        rw [List.map_cons, List.sum_cons, hsw, Nat.zero_add, ih]
        simp only [weight_total, List.filter_cons]
        rw [if_neg h]

/-- Total number of planned attempts over one full pass: the sum of the
weights of the eligible participants, wherever the pass starts. -/
theorem planned_length_total (ues : List ue_t) (s : Nat) :
    ((visit_order ues.length s).flatMap (planned_at ues)).length = weight_total ues := by
  rw [List.length_flatMap]
  have hperm := (visit_order_perm ues.length s).map (List.length ∘ planned_at ues)
  rw [hperm.sum_eq]
  have hfun : (List.length ∘ planned_at ues) = fun i => sched_weight (ues.getD i ue_default) :=
    funext (planned_at_length ues)
  rw [hfun, range_getD_sum, sched_weight_sum]

theorem planned_at_fst (ues : List ue_t) (v : Nat) :
    ∀ q ∈ planned_at ues v, q.1 = v := by
  intro q hq
  by_cases h : is_eligible (ues.getD v ue_default) = true
  · simp only [planned_at] at hq
    rw [if_pos h] at hq
    rw [List.eq_of_mem_replicate hq]
  · simp only [planned_at] at hq
    rw [if_neg h] at hq
    cases hq

theorem countP_planned_self (ues : List ue_t) (i : Nat) :
    (planned_at ues i).countP (fun q => decide (q.1 = i)) = (planned_at ues i).length :=
  List.countP_eq_length.mpr (fun q hq => by
    rw [planned_at_fst ues i q hq]
    exact decide_eq_true rfl)

theorem countP_planned_ne (ues : List ue_t) (v i : Nat) (h : v ≠ i) :
    (planned_at ues v).countP (fun q => decide (q.1 = i)) = 0 :=
  List.countP_eq_zero.mpr (fun q hq => by
    rw [planned_at_fst ues v q hq]
    simp [h])

theorem countP_flatMap_not_mem (ues : List ue_t) (i : Nat) :
    ∀ V : List Nat, i ∉ V →
      (V.flatMap (planned_at ues)).countP (fun q => decide (q.1 = i)) = 0 := by
  intro V
  induction V with
  | nil => intro _; rfl
  | cons v vs ih =>
      intro hn
      rw [List.flatMap_cons, List.countP_append,
        ih (fun hm => hn (List.mem_cons_of_mem v hm)),
        countP_planned_ne ues v i (fun he => hn (he ▸ List.mem_cons_self v vs))]

theorem countP_flatMap_nodup (ues : List ue_t) (i : Nat) :
    ∀ V : List Nat, V.Nodup → i ∈ V →
      (V.flatMap (planned_at ues)).countP (fun q => decide (q.1 = i))
        = (planned_at ues i).length := by
  intro V
  induction V with
  | nil => intro _ h; cases h
  | cons v vs ih =>
      intro hnd hm
      rw [List.flatMap_cons, List.countP_append]
      rcases List.mem_cons.mp hm with he | hm'
      · subst he
        rw [countP_planned_self, countP_flatMap_not_mem ues i vs (List.nodup_cons.mp hnd).1,
          Nat.add_zero]
      · have hvne : v ≠ i := by
          rintro rfl
          exact (List.nodup_cons.mp hnd).1 hm'
        rw [countP_planned_ne ues v i hvne, ih (List.nodup_cons.mp hnd).2 hm', Nat.zero_add]

/-! ## Unfolding `wrr_schedule` branch by branch -/

theorem wrr_schedule_none (σ : Type) (ues : List ue_t) (s : Nat) (c : σ) :
    wrr_schedule σ ues s none c
      = { next_idx := 0, ctx := c, attempts := [], ues_after := ues } := rfl

theorem wrr_schedule_no_elig (σ : Type) (ues : List ue_t) (s : Nat) (alloc : alloc_ue_fn σ)
    (c : σ) (hn : ues.length ≠ 0) (he : active_count ues = 0) :
    wrr_schedule σ ues s (some alloc) c
      = { next_idx := s % ues.length, ctx := c, attempts := [], ues_after := ues } := by
  simp only [wrr_schedule]
  rw [if_neg hn, if_pos he]

theorem wrr_schedule_main (σ : Type) (ues : List ue_t) (s : Nat) (alloc : alloc_ue_fn σ)
    (c : σ) (hn : ues.length ≠ 0) (he : active_count ues ≠ 0) :
    wrr_schedule σ ues s (some alloc) c
      = { next_idx := (wrr_loop σ alloc ues.length ues ues.length (s % ues.length)
              s false c).next_idx % ues.length,
          ctx := (wrr_loop σ alloc ues.length ues ues.length (s % ues.length) s false c).ctx,
          attempts := (wrr_loop σ alloc ues.length ues ues.length (s % ues.length)
              s false c).attempts,
          ues_after := (wrr_loop σ alloc ues.length ues ues.length (s % ues.length)
              s false c).ues_after } := by
  simp only [wrr_schedule]
  rw [if_neg hn, if_neg he]

theorem active_count_zero_all :
    ∀ l : List ue_t, active_count l = 0 → ∀ u ∈ l, is_eligible u = false := by
  intro l
  induction l with
  | nil => intro _ u hu; cases hu
  | cons v t ih =>
      intro he u hu
      simp only [active_count] at he
      have ht : active_count t = 0 := by omega
      have hv : is_eligible v = false := by
        by_cases hv' : is_eligible v = true
        · rw [if_pos hv'] at he
          omega
        · exact Bool.eq_false_iff.mpr hv'
      rcases List.mem_cons.mp hu with rfl | hu'
      · exact hv
      · exact ih ht u hu'

theorem active_count_zero_planned (ues : List ue_t) (he : active_count ues = 0) (i : Nat) :
    planned_at ues i = [] := by
  have hne : is_eligible (ues.getD i ue_default) = false := by
    by_cases hi : i < ues.length
    · refine active_count_zero_all ues he _ ?_
      rw [List.getD_eq_getElem _ _ hi]
      exact List.getElem_mem hi
    · rw [List.getD_eq_default _ _ (Nat.le_of_not_lt hi)]
      rfl
  simp only [planned_at]
  rw [if_neg (by rw [hne]; exact Bool.false_ne_true)]

theorem flatMap_planned_nil (ues : List ue_t) (he : active_count ues = 0) :
    ∀ V : List Nat, V.flatMap (planned_at ues) = [] := by
  intro V
  induction V with
  | nil => rfl
  | cons v vs ih =>
      rw [List.flatMap_cons, active_count_zero_planned ues he v, List.nil_append, ih]

/-- The outcome-independent part of the trace of one full call: attempts
happen at `start % n, start % n + 1, …` wrapping once around, `weight`
many at every eligible position. -/
theorem wrr_schedule_attempts_eq (σ : Type) (alloc : alloc_ue_fn σ) (ues : List ue_t)
    (s : Nat) (c : σ) (hn : 0 < ues.length) :
    (wrr_schedule σ ues s (some alloc) c).attempts.map (fun r => (r.pos, r.ue))
      = (visit_order ues.length (s % ues.length)).flatMap (planned_at ues) := by
  by_cases he : active_count ues = 0
  · rw [wrr_schedule_no_elig σ ues s alloc c (Nat.pos_iff_ne_zero.mp hn) he,
      flatMap_planned_nil ues he]
    rfl
  · rw [wrr_schedule_main σ ues s alloc c (Nat.pos_iff_ne_zero.mp hn) he]
    dsimp only
    exact wrr_loop_trace σ alloc ues.length ues ues.length (s % ues.length) s false c
      (Nat.mod_lt s hn)

theorem wrr_schedule_attempts_total (σ : Type) (alloc : alloc_ue_fn σ) (ues : List ue_t)
    (s : Nat) (c : σ) (hn : 0 < ues.length) :
    (wrr_schedule σ ues s (some alloc) c).attempts.length = weight_total ues := by
  have h := wrr_schedule_attempts_eq σ alloc ues s c hn
  have h2 := List.length_map (wrr_schedule σ ues s (some alloc) c).attempts
    (fun r => (r.pos, r.ue))
  rw [← h2, h, planned_length_total]

theorem wrr_schedule_attempts_countP (σ : Type) (alloc : alloc_ue_fn σ) (ues : List ue_t)
    (s : Nat) (c : σ) (hn : 0 < ues.length) (i : Nat) (hi : i < ues.length) :
    (wrr_schedule σ ues s (some alloc) c).attempts.countP (fun r => decide (r.pos = i))
      = sched_weight (ues.getD i ue_default) := by
  have h := wrr_schedule_attempts_eq σ alloc ues s c hn
  have hc := List.countP_map (fun q : Nat × ue_t => decide (q.1 = i))
    (fun r : attempt_record => (r.pos, r.ue)) (wrr_schedule σ ues s (some alloc) c).attempts
  rw [h] at hc
  rw [← planned_at_length ues i,
    ← countP_flatMap_nodup ues i (visit_order ues.length (s % ues.length))
      (visit_order_nodup _ _) (mem_visit_order.mpr hi), hc]
  rfl

/-- The returned index of a call that reaches the main loop, expressed
through `cursor_spec`. -/
theorem wrr_schedule_next_idx_eq (σ : Type) (alloc : alloc_ue_fn σ) (ues : List ue_t)
    (s : Nat) (c : σ) (hn : 0 < ues.length) (he : active_count ues ≠ 0) :
    (wrr_schedule σ ues s (some alloc) c).next_idx
      = cursor_spec ues.length s false
          (wrr_schedule σ ues s (some alloc) c).attempts % ues.length := by
  rw [wrr_schedule_main σ ues s alloc c (Nat.pos_iff_ne_zero.mp hn) he]
  dsimp only
  rw [wrr_loop_next_idx_spec]

/-! ## Independence from the `ue_id` field -/

theorem alloc_attempts_congr (σ : Type) (alloc : alloc_ue_fn σ) (u₁ u₂ : ue_t)
    (hw : u₁.weight = u₂.weight) (ha : u₁.active = u₂.active)
    (hblind : ∀ v₁ v₂ s, v₁.weight = v₂.weight → v₁.active = v₂.active →
      alloc v₁ s = alloc v₂ s) :
    ∀ (w : Nat) (s : σ), alloc_attempts σ alloc u₁ w s = alloc_attempts σ alloc u₂ w s := by
  intro w
  induction w with
  | zero => intro s; rfl
  | succ k ih =>
      intro s
      simp only [alloc_attempts]
      rw [hblind u₁ u₂ s hw ha, ih]

theorem is_eligible_congr (u₁ u₂ : ue_t) (hw : u₁.weight = u₂.weight)
    (ha : u₁.active = u₂.active) : is_eligible u₁ = is_eligible u₂ := by
  simp only [is_eligible]
  rw [hw, ha]

theorem active_count_congr :
    ∀ (l₁ l₂ : List ue_t), l₁.length = l₂.length →
      (∀ i, i < l₁.length →
        (l₁.getD i ue_default).weight = (l₂.getD i ue_default).weight
          ∧ (l₁.getD i ue_default).active = (l₂.getD i ue_default).active) →
      active_count l₁ = active_count l₂ := by
  intro l₁
  induction l₁ with
  | nil =>
      intro l₂ hlen _
      cases l₂ with
      | nil => rfl
      | cons v t => cases hlen
  | cons u t ih =>
      intro l₂ hlen hwa
      cases l₂ with
      | nil => cases hlen
      | cons v t₂ =>
          have h0 := hwa 0 (Nat.succ_pos t.length)
          rw [List.getD_cons_zero, List.getD_cons_zero] at h0
          have htail : active_count t = active_count t₂ := by
            refine ih t₂ (Nat.succ.injEq _ _ ▸ hlen) ?_
            intro i hi
            have := hwa (i + 1) (Nat.succ_lt_succ hi)
            rwa [List.getD_cons_succ, List.getD_cons_succ] at this
          simp only [active_count]
          rw [htail, is_eligible_congr u v h0.1 h0.2]

/-- The main loop behaves identically on two participant lists that agree
on `weight` and `active` everywhere, when driven by an id-blind callback:
same cursor, same final context, and the same attempt positions and
outcomes. -/
theorem wrr_loop_congr (σ : Type) (alloc : alloc_ue_fn σ) (n : Nat) (ues₁ ues₂ : List ue_t)
    (hwa : ∀ i, i < n →
      (ues₁.getD i ue_default).weight = (ues₂.getD i ue_default).weight
        ∧ (ues₁.getD i ue_default).active = (ues₂.getD i ue_default).active)
    (hblind : ∀ v₁ v₂ s, v₁.weight = v₂.weight → v₁.active = v₂.active →
      alloc v₁ s = alloc v₂ s) :
    ∀ (fuel idx nidx : Nat) (a : Bool) (s : σ), idx < n →
      (wrr_loop σ alloc n ues₁ fuel idx nidx a s).next_idx
          = (wrr_loop σ alloc n ues₂ fuel idx nidx a s).next_idx
        ∧ (wrr_loop σ alloc n ues₁ fuel idx nidx a s).ctx
          = (wrr_loop σ alloc n ues₂ fuel idx nidx a s).ctx
        ∧ (wrr_loop σ alloc n ues₁ fuel idx nidx a s).attempts.map
              (fun r => (r.pos, r.outcome))
          = (wrr_loop σ alloc n ues₂ fuel idx nidx a s).attempts.map
              (fun r => (r.pos, r.outcome)) := by
  intro fuel
  induction fuel with
  | zero => intro idx nidx a s _; exact ⟨rfl, rfl, rfl⟩
  | succ k ih =>
      intro idx nidx a s hidx
      have hn : 0 < n := Nat.lt_of_le_of_lt (Nat.zero_le idx) hidx
      have hidx' : (idx + 1) % n < n := Nat.mod_lt _ hn
      have h12 := hwa idx hidx
      have helig := is_eligible_congr _ _ h12.1 h12.2
      by_cases h : is_eligible (ues₁.getD idx ue_default) = true
      · have h' : is_eligible (ues₂.getD idx ue_default) = true := helig ▸ h
        simp only [wrr_loop]
        rw [if_pos h, if_pos h']
        dsimp only
        rw [← h12.1,
          ← alloc_attempts_congr σ alloc _ _ h12.1 h12.2 hblind
            (ues₁.getD idx ue_default).weight s]
        obtain ⟨ih1, ih2, ih3⟩ := ih ((idx + 1) % n)
          (if (a || (alloc_attempts σ alloc (ues₁.getD idx ue_default)
              (ues₁.getD idx ue_default).weight s).1.any is_success) = true
            then (idx + 1) % n else nidx)
          (a || (alloc_attempts σ alloc (ues₁.getD idx ue_default)
            (ues₁.getD idx ue_default).weight s).1.any is_success)
          (alloc_attempts σ alloc (ues₁.getD idx ue_default)
            (ues₁.getD idx ue_default).weight s).2
          hidx'
        refine ⟨ih1, ih2, ?_⟩
        rw [List.map_append, List.map_append, List.map_map, List.map_map, ih3]
        have hcomp₁ : ((fun r : attempt_record => (r.pos, r.outcome))
            ∘ (fun o => attempt_record.mk idx (ues₁.getD idx ue_default) o))
            = fun o : alloc_outcome_t => (idx, o) := rfl
        have hcomp₂ : ((fun r : attempt_record => (r.pos, r.outcome))
            ∘ (fun o => attempt_record.mk idx (ues₂.getD idx ue_default) o))
            = fun o : alloc_outcome_t => (idx, o) := rfl
        rw [hcomp₁, hcomp₂]
      · have h' : ¬is_eligible (ues₂.getD idx ue_default) = true := helig ▸ h
        simp only [wrr_loop]
        rw [if_neg h, if_neg h']
        exact ih _ _ _ _ hidx'

/-! ## The claims -/

/-- C1: with `count > 0`, a non-null callback, at least one eligible
participant and at least one successful attempt, the returned index is
`(i + 1) mod count` where `i` is the position of the last attempt of the
pass (the last eligible participant visited at or after the first
success — the any-success flag, once set, stays set, so every later
eligible participant overwrites the pending cursor to just past itself). -/
theorem claim_C1 (σ : Type) (ues : List ue_t) (s : Nat) (alloc : alloc_ue_fn σ) (c : σ)
    (e : attempt_record) (hn : 0 < ues.length) (he : active_count ues ≠ 0)
    (hsucc : (wrr_schedule σ ues s (some alloc) c).attempts.any
      (fun r => is_success r.outcome) = true)
    (hlast : (wrr_schedule σ ues s (some alloc) c).attempts.getLast? = some e) :
    (wrr_schedule σ ues s (some alloc) c).next_idx = (e.pos + 1) % ues.length := by
  rw [wrr_schedule_next_idx_eq σ alloc ues s c hn he,
    cursor_spec_of_getLast hlast, Bool.false_or, hsucc, if_pos rfl]
  exact Nat.mod_mod_of_dvd _ dvd_rfl

/-- Witness for C1 at a concrete input. -/
theorem claim_C1_witness :
    (wrr_schedule Unit [⟨5, 1, true⟩] 0
        (some (fun _ t => (alloc_outcome_t.ALLOC_SUCCESS, t))) ()).next_idx
      = (0 + 1) % 1 :=
  claim_C1 Unit [⟨5, 1, true⟩] 0 (fun _ t => (alloc_outcome_t.ALLOC_SUCCESS, t)) ()
    ⟨0, ⟨5, 1, true⟩, alloc_outcome_t.ALLOC_SUCCESS⟩
    (by decide) (by decide) (by rfl) (by rfl)

/-- C2: with `count > 0` and a non-null callback, the callback is invoked
exactly `weight`-many times at each eligible position, zero times at
ineligible positions, and the total number of invocations is the sum of
the eligible weights — regardless of the outcomes. -/
theorem claim_C2 (σ : Type) (ues : List ue_t) (s : Nat) (alloc : alloc_ue_fn σ) (c : σ)
    (hn : 0 < ues.length) :
    (wrr_schedule σ ues s (some alloc) c).attempts.length = weight_total ues
    ∧ ∀ i, i < ues.length →
        (wrr_schedule σ ues s (some alloc) c).attempts.countP (fun r => decide (r.pos = i))
          = sched_weight (ues.getD i ue_default) :=
  ⟨wrr_schedule_attempts_total σ alloc ues s c hn,
   fun i hi => wrr_schedule_attempts_countP σ alloc ues s c hn i hi⟩

/-- Witness for C2 at a concrete input. -/
theorem claim_C2_witness :
    (wrr_schedule Unit [⟨1, 1, true⟩, ⟨2, 2, false⟩, ⟨3, 4, true⟩] 0
        (some (fun _ t => (alloc_outcome_t.ALLOC_SUCCESS, t))) ()).attempts.length
      = weight_total [⟨1, 1, true⟩, ⟨2, 2, false⟩, ⟨3, 4, true⟩]
    ∧ (wrr_schedule Unit [⟨1, 1, true⟩, ⟨2, 2, false⟩, ⟨3, 4, true⟩] 0
        (some (fun _ t => (alloc_outcome_t.ALLOC_SUCCESS, t))) ()).attempts.countP
          (fun r => decide (r.pos = 1))
      = sched_weight ([⟨1, 1, true⟩, ⟨2, 2, false⟩, ⟨3, 4, true⟩].getD 1 ue_default) :=
  ⟨(claim_C2 Unit [⟨1, 1, true⟩, ⟨2, 2, false⟩, ⟨3, 4, true⟩] 0
      (fun _ t => (alloc_outcome_t.ALLOC_SUCCESS, t)) () (by decide)).1,
   (claim_C2 Unit [⟨1, 1, true⟩, ⟨2, 2, false⟩, ⟨3, 4, true⟩] 0
      (fun _ t => (alloc_outcome_t.ALLOC_SUCCESS, t)) () (by decide)).2 1 (by decide)⟩

/-- C3: with `count > 0` and a non-null callback, the call performs one
pass: attempts happen at positions `start mod count, +1, …` wrapping
modulo `count`, visiting each position exactly once (the visit order is a
permutation of `0, …, count-1`), with `weight` attempts at every eligible
position in traversal order. -/
theorem claim_C3 (σ : Type) (ues : List ue_t) (s : Nat) (alloc : alloc_ue_fn σ) (c : σ)
    (hn : 0 < ues.length) :
    (wrr_schedule σ ues s (some alloc) c).attempts.map (fun r => (r.pos, r.ue))
        = (visit_order ues.length (s % ues.length)).flatMap (planned_at ues)
      ∧ (visit_order ues.length (s % ues.length)).Perm (List.range ues.length) :=
  ⟨wrr_schedule_attempts_eq σ alloc ues s c hn, visit_order_perm _ _⟩

/-- Witness for C3 at a concrete input (`start_index = 5`, `count = 3`). -/
theorem claim_C3_witness :
    (wrr_schedule Unit [⟨1, 1, true⟩, ⟨2, 2, true⟩, ⟨3, 4, true⟩] 5
        (some (fun _ t => (alloc_outcome_t.ALLOC_SUCCESS, t))) ()).attempts.map
          (fun r => (r.pos, r.ue))
        = (visit_order 3 (5 % 3)).flatMap (planned_at [⟨1, 1, true⟩, ⟨2, 2, true⟩, ⟨3, 4, true⟩])
      ∧ (visit_order 3 (5 % 3)).Perm (List.range 3) :=
  claim_C3 Unit [⟨1, 1, true⟩, ⟨2, 2, true⟩, ⟨3, 4, true⟩] 5
    (fun _ t => (alloc_outcome_t.ALLOC_SUCCESS, t)) () (by decide)

/-- C4: with `count > 0`, a non-null callback and at least one eligible
participant, if every attempt of the pass fails, the returned index is
the original `start_index mod count` — although all weight-many attempts
per eligible participant were still made. -/
theorem claim_C4 (σ : Type) (ues : List ue_t) (s : Nat) (alloc : alloc_ue_fn σ) (c : σ)
    (hn : 0 < ues.length) (he : active_count ues ≠ 0)
    (hfail : ∀ r ∈ (wrr_schedule σ ues s (some alloc) c).attempts,
      r.outcome = alloc_outcome_t.ALLOC_FAIL) :
    (wrr_schedule σ ues s (some alloc) c).next_idx = s % ues.length
    ∧ (wrr_schedule σ ues s (some alloc) c).attempts.length = weight_total ues := by
  constructor
  · have hany : (wrr_schedule σ ues s (some alloc) c).attempts.any
        (fun r => is_success r.outcome) = false := by
      rw [List.any_eq_false]
      intro r hr
      rw [hfail r hr]
      simp [is_success]
    rw [wrr_schedule_next_idx_eq σ alloc ues s c hn he]
    cases hl : (wrr_schedule σ ues s (some alloc) c).attempts.getLast? with
    | none => simp only [cursor_spec, hl]
    | some e =>
        rw [cursor_spec_of_getLast hl, Bool.false_or, hany, if_neg Bool.false_ne_true]
  · exact wrr_schedule_attempts_total σ alloc ues s c hn

/-- Witness for C4 at the spec's concrete always-FAIL scenario. -/
theorem claim_C4_witness :
    (wrr_schedule Unit [⟨1, 1, true⟩, ⟨2, 2, true⟩, ⟨3, 4, true⟩] 0
        (some (fun _ t => (alloc_outcome_t.ALLOC_FAIL, t))) ()).next_idx = 0 % 3
    ∧ (wrr_schedule Unit [⟨1, 1, true⟩, ⟨2, 2, true⟩, ⟨3, 4, true⟩] 0
        (some (fun _ t => (alloc_outcome_t.ALLOC_FAIL, t))) ()).attempts.length
      = weight_total [⟨1, 1, true⟩, ⟨2, 2, true⟩, ⟨3, 4, true⟩] :=
  claim_C4 Unit [⟨1, 1, true⟩, ⟨2, 2, true⟩, ⟨3, 4, true⟩] 0
    (fun _ t => (alloc_outcome_t.ALLOC_FAIL, t)) () (by decide) (by decide) (by decide)

/-- C5: with `count > 0`, a non-null callback and no eligible participant,
the call returns `start_index mod count`, invokes the callback zero times
and leaves the context and participants untouched. -/
theorem claim_C5 (σ : Type) (ues : List ue_t) (s : Nat) (alloc : alloc_ue_fn σ) (c : σ)
    (hn : 0 < ues.length) (he : active_count ues = 0) :
    wrr_schedule σ ues s (some alloc) c
      = { next_idx := s % ues.length, ctx := c, attempts := [], ues_after := ues } :=
  wrr_schedule_no_elig σ ues s alloc c (Nat.pos_iff_ne_zero.mp hn) he

/-- Witness for C5 at a concrete input (one inactive, one zero-weight UE). -/
theorem claim_C5_witness :
    wrr_schedule Unit [⟨1, 0, true⟩, ⟨2, 3, false⟩] 7
        (some (fun _ t => (alloc_outcome_t.ALLOC_SUCCESS, t))) ()
      = { next_idx := 7 % 2, ctx := (), attempts := [],
          ues_after := [⟨1, 0, true⟩, ⟨2, 3, false⟩] } :=
  claim_C5 Unit [⟨1, 0, true⟩, ⟨2, 3, false⟩] 7
    (fun _ t => (alloc_outcome_t.ALLOC_SUCCESS, t)) () (by decide) (by decide)

/-- C6: with `count == 0` or an absent callback, the call returns `0`
immediately, performing no attempts, for all other arguments. -/
theorem claim_C6 (σ : Type) (ues : List ue_t) (s : Nat)
    (alloc_fn : Option (alloc_ue_fn σ)) (c : σ) (h : ues = [] ∨ alloc_fn = none) :
    wrr_schedule σ ues s alloc_fn c
      = { next_idx := 0, ctx := c, attempts := [], ues_after := ues } := by
  rcases h with h | h
  · subst h
    cases alloc_fn with
    | none => rfl
    | some alloc => rfl
  · subst h
    rfl

/-- Witness for C6 at a concrete input. -/
theorem claim_C6_witness :
    wrr_schedule Unit ([] : List ue_t) 42
        (some (fun _ t => (alloc_outcome_t.ALLOC_SUCCESS, t))) ()
      = { next_idx := 0, ctx := (), attempts := [], ues_after := [] } :=
  claim_C6 Unit [] 42 (some (fun _ t => (alloc_outcome_t.ALLOC_SUCCESS, t))) ()
    (Or.inl rfl)

/-- C7: the returned index is always valid — `0` when `count == 0` and in
`[0, count)` otherwise — and an out-of-range `start_index` is accepted
and reduced modulo `count`: the call behaves exactly like the call with
the normalized start index. -/
theorem claim_C7 (σ : Type) (ues : List ue_t) (s : Nat)
    (alloc_fn : Option (alloc_ue_fn σ)) (c : σ) :
    ((ues.length = 0 → (wrr_schedule σ ues s alloc_fn c).next_idx = 0)
      ∧ (0 < ues.length → (wrr_schedule σ ues s alloc_fn c).next_idx < ues.length))
    ∧ wrr_schedule σ ues s alloc_fn c = wrr_schedule σ ues (s % ues.length) alloc_fn c := by
  refine ⟨⟨?_, ?_⟩, ?_⟩
  · intro h0
    have hnil : ues = [] := List.length_eq_zero.mp h0
    subst hnil
    cases alloc_fn with
    | none => rfl
    | some alloc => rfl
  · intro hn
    cases alloc_fn with
    | none =>
        rw [wrr_schedule_none]
        exact hn
    | some alloc =>
        by_cases he : active_count ues = 0
        · rw [wrr_schedule_no_elig σ ues s alloc c (Nat.pos_iff_ne_zero.mp hn) he]
          exact Nat.mod_lt s hn
        · rw [wrr_schedule_main σ ues s alloc c (Nat.pos_iff_ne_zero.mp hn) he]
          exact Nat.mod_lt _ hn
  · cases alloc_fn with
    | none => rw [wrr_schedule_none, wrr_schedule_none]
    | some alloc =>
        by_cases hn : ues.length = 0
        · rw [hn, Nat.mod_zero]
        · have hmm : s % ues.length % ues.length = s % ues.length :=
            Nat.mod_mod_of_dvd s dvd_rfl
          by_cases he : active_count ues = 0
          · rw [wrr_schedule_no_elig σ ues s alloc c hn he,
              wrr_schedule_no_elig σ ues (s % ues.length) alloc c hn he, hmm]
          · rw [wrr_schedule_main σ ues s alloc c hn he,
              wrr_schedule_main σ ues (s % ues.length) alloc c hn he, hmm]
            obtain ⟨hatt, hctx⟩ := wrr_loop_nidx_indep σ alloc ues.length ues
              ues.length (s % ues.length) false c s (s % ues.length)
            simp only [wrr_result.mk.injEq]
            refine ⟨?_, hctx, hatt, by rw [wrr_loop_ues_after, wrr_loop_ues_after]⟩
            rw [wrr_loop_next_idx_spec, wrr_loop_next_idx_spec, ← hatt]
            cases hl : (wrr_loop σ alloc ues.length ues ues.length (s % ues.length)
                s false c).attempts.getLast? with
            | none =>
                simp only [cursor_spec, hl]
                exact hmm.symm
            | some e =>
                rw [cursor_spec_of_getLast hl, cursor_spec_of_getLast hl]
                by_cases hc : (false || (wrr_loop σ alloc ues.length ues ues.length
                    (s % ues.length) s false c).attempts.any
                      (fun r => is_success r.outcome)) = true
                · rw [if_pos hc, if_pos hc]
                · rw [if_neg hc, if_neg hc]
                  exact hmm.symm

/-- Witness for C7 at a concrete input. -/
theorem claim_C7_witness :
    (wrr_schedule Unit [⟨1, 1, true⟩] 5
        (some (fun _ t => (alloc_outcome_t.ALLOC_SUCCESS, t))) ()).next_idx < 1
    ∧ wrr_schedule Unit [⟨1, 1, true⟩] 5
          (some (fun _ t => (alloc_outcome_t.ALLOC_SUCCESS, t))) ()
        = wrr_schedule Unit [⟨1, 1, true⟩] (5 % 1)
          (some (fun _ t => (alloc_outcome_t.ALLOC_SUCCESS, t))) () :=
  ⟨(claim_C7 Unit [⟨1, 1, true⟩] 5
      (some (fun _ t => (alloc_outcome_t.ALLOC_SUCCESS, t))) ()).1.2 (by decide),
   (claim_C7 Unit [⟨1, 1, true⟩] 5
      (some (fun _ t => (alloc_outcome_t.ALLOC_SUCCESS, t))) ()).2⟩

/-- C8: the scheduler never mutates any participant record — the
participant sequence after any call is the sequence passed in; the only
effects are the recorded callback invocations and the returned values. -/
theorem claim_C8 (σ : Type) (ues : List ue_t) (s : Nat)
    (alloc_fn : Option (alloc_ue_fn σ)) (c : σ) :
    (wrr_schedule σ ues s alloc_fn c).ues_after = ues := by
  cases alloc_fn with
  | none => rfl
  | some alloc =>
      by_cases hn : ues.length = 0
      · simp only [wrr_schedule]
        rw [if_pos hn]
      · by_cases he : active_count ues = 0
        · rw [wrr_schedule_no_elig σ ues s alloc c hn he]
        · rw [wrr_schedule_main σ ues s alloc c hn he]
          exact wrr_loop_ues_after σ alloc ues.length ues ues.length
            (s % ues.length) s false c

/-- C9: idempotence under no-activity — with `count > 0` and no eligible
participant, feeding the returned cursor back into another call returns
the same cursor. -/
theorem claim_C9 (σ : Type) (ues : List ue_t) (s : Nat)
    (alloc_fn : Option (alloc_ue_fn σ)) (c : σ)
    (hn : 0 < ues.length) (he : active_count ues = 0) :
    (wrr_schedule σ ues ((wrr_schedule σ ues s alloc_fn c).next_idx) alloc_fn c).next_idx
      = (wrr_schedule σ ues s alloc_fn c).next_idx := by
  cases alloc_fn with
  | none => rfl
  | some alloc =>
      rw [wrr_schedule_no_elig σ ues s alloc c (Nat.pos_iff_ne_zero.mp hn) he]
      dsimp only
      rw [wrr_schedule_no_elig σ ues (s % ues.length) alloc c
        (Nat.pos_iff_ne_zero.mp hn) he]
      exact Nat.mod_mod_of_dvd s dvd_rfl

/-- Witness for C9 at a concrete input. -/
theorem claim_C9_witness :
    (wrr_schedule Unit [⟨1, 0, true⟩]
        ((wrr_schedule Unit [⟨1, 0, true⟩] 3
          (some (fun _ t => (alloc_outcome_t.ALLOC_SUCCESS, t))) ()).next_idx)
        (some (fun _ t => (alloc_outcome_t.ALLOC_SUCCESS, t))) ()).next_idx
      = (wrr_schedule Unit [⟨1, 0, true⟩] 3
          (some (fun _ t => (alloc_outcome_t.ALLOC_SUCCESS, t))) ()).next_idx :=
  claim_C9 Unit [⟨1, 0, true⟩] 3 (some (fun _ t => (alloc_outcome_t.ALLOC_SUCCESS, t))) ()
    (by decide) (by decide)

/-- C10: noninterference with respect to participant identity — two
participant lists of equal length agreeing on `weight` and `active` at
every position, driven by an id-blind callback, produce the same returned
index, the same final context, and the same sequence of attempt positions
and outcomes. -/
theorem claim_C10 (σ : Type) (ues₁ ues₂ : List ue_t) (s : Nat) (alloc : alloc_ue_fn σ)
    (c : σ) (hlen : ues₁.length = ues₂.length)
    (hwa : ∀ i, i < ues₁.length →
      (ues₁.getD i ue_default).weight = (ues₂.getD i ue_default).weight
        ∧ (ues₁.getD i ue_default).active = (ues₂.getD i ue_default).active)
    (hblind : ∀ v₁ v₂ t, v₁.weight = v₂.weight → v₁.active = v₂.active →
      alloc v₁ t = alloc v₂ t) :
    (wrr_schedule σ ues₁ s (some alloc) c).next_idx
        = (wrr_schedule σ ues₂ s (some alloc) c).next_idx
    ∧ (wrr_schedule σ ues₁ s (some alloc) c).ctx
        = (wrr_schedule σ ues₂ s (some alloc) c).ctx
    ∧ (wrr_schedule σ ues₁ s (some alloc) c).attempts.map (fun r => (r.pos, r.outcome))
        = (wrr_schedule σ ues₂ s (some alloc) c).attempts.map
            (fun r => (r.pos, r.outcome)) := by
  have hac : active_count ues₁ = active_count ues₂ := active_count_congr ues₁ ues₂ hlen hwa
  by_cases hn : ues₁.length = 0
  · have h1 : ues₁ = [] := List.length_eq_zero.mp hn
    have h2 : ues₂ = [] := List.length_eq_zero.mp (hlen ▸ hn)
    subst h1
    subst h2
    exact ⟨rfl, rfl, rfl⟩
  · have hn₂ : ues₂.length ≠ 0 := by
      rw [← hlen]
      exact hn
    by_cases he : active_count ues₁ = 0
    · rw [wrr_schedule_no_elig σ ues₁ s alloc c hn he,
        wrr_schedule_no_elig σ ues₂ s alloc c hn₂ (hac ▸ he)]
      exact ⟨by rw [hlen], rfl, rfl⟩
    · have he₂ : active_count ues₂ ≠ 0 := by
        rw [← hac]
        exact he
      rw [wrr_schedule_main σ ues₁ s alloc c hn he,
        wrr_schedule_main σ ues₂ s alloc c hn₂ he₂]
      dsimp only
      rw [← hlen]
      obtain ⟨h1, h2, h3⟩ := wrr_loop_congr σ alloc ues₁.length ues₁ ues₂ hwa hblind
        ues₁.length (s % ues₁.length) s false c (Nat.mod_lt s (Nat.pos_of_ne_zero hn))
      exact ⟨by rw [h1], h2, h3⟩

/-- Witness for C10: two singleton lists differing only in `ue_id`. -/
theorem claim_C10_witness :
    (wrr_schedule Unit [⟨1, 2, true⟩] 0
        (some (fun _ t => (alloc_outcome_t.ALLOC_SUCCESS, t))) ()).next_idx
        = (wrr_schedule Unit [⟨9, 2, true⟩] 0
            (some (fun _ t => (alloc_outcome_t.ALLOC_SUCCESS, t))) ()).next_idx
    ∧ (wrr_schedule Unit [⟨1, 2, true⟩] 0
        (some (fun _ t => (alloc_outcome_t.ALLOC_SUCCESS, t))) ()).ctx
        = (wrr_schedule Unit [⟨9, 2, true⟩] 0
            (some (fun _ t => (alloc_outcome_t.ALLOC_SUCCESS, t))) ()).ctx
    ∧ (wrr_schedule Unit [⟨1, 2, true⟩] 0
          (some (fun _ t => (alloc_outcome_t.ALLOC_SUCCESS, t))) ()).attempts.map
            (fun r => (r.pos, r.outcome))
        = (wrr_schedule Unit [⟨9, 2, true⟩] 0
            (some (fun _ t => (alloc_outcome_t.ALLOC_SUCCESS, t))) ()).attempts.map
              (fun r => (r.pos, r.outcome)) :=
  claim_C10 Unit [⟨1, 2, true⟩] [⟨9, 2, true⟩] 0
    (fun _ t => (alloc_outcome_t.ALLOC_SUCCESS, t)) () rfl
    (fun i hi => by
      have h0 : i = 0 := by
        simp only [List.length_cons, List.length_nil] at hi
        omega
      subst h0
      exact ⟨rfl, rfl⟩)
    (fun _ _ _ _ _ => rfl)

end WRR
